import Mathlib

/-!
Verification of the QR-code encoder core (townmi/qrcode).

The development shallowly embeds the Go sources:
- `src/unnamed/part_000` (package reedsolomon, GF(2^8) tables and arithmetic),
- `src/unnamed/part_001` (package reedsolomon, `Encode` and `rsGeneratorPoly`),
- `src/qrcode.go` (`New`, `encode`, `encodeBlocks`, `addPadding`).

Machine integers are modelled as `Nat` (`gfElement` is `uint8`, so all field
values lie in `0..255`); Go panics are modelled as `Option`/`Except` failures;
Go array indexing is bounds-checked, so an out-of-range index is a panic
(`none`).  Parts of the repository that are not under `src/` (the bitset
package, the gfPoly layer, the version catalog, the data encoder, the symbol
builder) are modelled from the specification; each such definition carries a
doc comment starting with `Modelled from the spec:`.
-/

set_option maxHeartbeats 1000000
set_option maxRecDepth 4000

namespace QR

/-- Source table `gfExpTable` from src/unnamed/part_000 (lines 16-42),
transcribed verbatim: entry `i` is intended to be `α^i` in GF(2^8). -/
def gfExpTable : List Nat :=
  [1, 2, 4, 8, 16, 32, 64, 128, 29, 58,
   116, 232, 205, 135, 19, 38, 76, 152, 45, 90,
   180, 117, 234, 201, 143, 3, 6, 12, 24, 48,
   96, 192, 157, 39, 78, 156, 37, 74, 148, 53,
   106, 212, 181, 119, 238, 193, 159, 35, 70, 140,
   5, 10, 20, 40, 80, 160, 93, 186, 105, 210,
   185, 111, 222, 161, 95, 190, 97, 194, 153, 47,
   94, 188, 101, 202, 137, 15, 30, 60, 120, 240,
   253, 231, 211, 187, 107, 214, 177, 127, 254, 225,
   223, 163, 91, 182, 113, 226, 217, 175, 67, 134,
   17, 34, 68, 136, 13, 26, 52, 104, 208, 189,
   103, 206, 129, 31, 62, 124, 248, 237, 199, 147,
   59, 118, 236, 197, 151, 51, 102, 204, 133, 23,
   46, 92, 184, 109, 218, 169, 79, 158, 33, 66,
   132, 21, 42, 84, 168, 77, 154, 41, 82, 164,
   85, 170, 73, 146, 57, 114, 228, 213, 183, 115,
   230, 209, 191, 99, 198, 145, 63, 126, 252, 229,
   215, 179, 123, 246, 241, 255, 227, 219, 171, 75,
   150, 49, 98, 196, 149, 55, 110, 220, 165, 87,
   174, 65, 130, 25, 50, 100, 200, 141, 7, 14,
   28, 56, 112, 224, 221, 167, 83, 166, 81, 162,
   89, 178, 121, 242, 249, 239, 195, 155, 43, 86,
   172, 69, 138, 9, 18, 36, 72, 144, 61, 122,
   244, 245, 247, 243, 251, 235, 203, 139, 11, 22,
   44, 88, 176, 125, 250, 233, 207, 131, 27, 54,
   108, 216, 173, 71, 142, 1]

/-- Source table `gfLogTable` from src/unnamed/part_000 (lines 44-70),
transcribed verbatim: `gfLogTable[v]` is intended to be the discrete log of
`v` base `α`; the entry at index 0 is the Go sentinel `-1`. -/
def gfLogTable : List Int :=
  [-1, 0, 1, 25, 2, 50, 26, 198, 3, 223,
   51, 238, 27, 104, 199, 75, 4, 100, 224, 14,
   52, 141, 239, 129, 28, 193, 105, 248, 200, 8,
   76, 113, 5, 138, 101, 47, 225, 36, 15, 33,
   53, 147, 142, 218, 240, 18, 130, 69, 29, 181,
   194, 125, 106, 39, 249, 185, 201, 154, 9, 120,
   77, 228, 114, 166, 6, 191, 139, 98, 102, 221,
   48, 253, 226, 152, 37, 179, 16, 145, 34, 136,
   54, 208, 148, 206, 143, 150, 219, 189, 241, 210,
   19, 92, 131, 56, 70, 64, 30, 66, 182, 163,
   195, 72, 126, 110, 107, 58, 40, 84, 250, 133,
   186, 61, 202, 94, 155, 159, 10, 21, 121, 43,
   78, 212, 229, 172, 115, 243, 167, 87, 7, 112,
   192, 247, 140, 128, 99, 13, 103, 74, 222, 237,
   49, 197, 254, 24, 227, 165, 153, 119, 38, 184,
   180, 124, 17, 68, 146, 217, 35, 32, 137, 46,
   55, 63, 209, 91, 149, 188, 207, 205, 144, 135,
   151, 178, 220, 252, 190, 97, 242, 86, 211, 171,
   20, 42, 93, 158, 132, 60, 57, 83, 71, 109,
   65, 162, 31, 45, 67, 216, 183, 123, 164, 118,
   196, 23, 73, 236, 127, 12, 111, 246, 108, 161,
   59, 82, 41, 157, 85, 170, 251, 96, 134, 177,
   187, 204, 62, 90, 203, 89, 95, 176, 156, 169,
   160, 81, 11, 245, 22, 235, 122, 117, 44, 215,
   79, 174, 213, 233, 230, 231, 173, 232, 116, 214,
   244, 234, 168, 80, 88, 175]

/-- Source `gfAdd` (part_000 line 82): addition in GF(2^8) is XOR. -/
def gfAdd (a b : Nat) : Nat := a ^^^ b

/-- Source `gfMultiply` (part_000 lines 94-100): zero if either factor is
zero, otherwise `gfExpTable[(gfLogTable[a]+gfLogTable[b]) % 255]`.  For the
`uint8` domain both logs are nonnegative so the Go `int` modulus agrees with
`Int.emod`. -/
def gfMultiply (a b : Nat) : Nat :=
  if a = 0 ∨ b = 0 then 0
  else gfExpTable.getD ((gfLogTable.getD a (-1) + gfLogTable.getD b (-1)) % 255).toNat 0

/-- Source `gfInverse` (part_000 lines 118-124): panics on 0 (modelled as
`none`), otherwise `gfExpTable[255 - gfLogTable[a]]`. -/
def gfInverse (a : Nat) : Option Nat :=
  if a = 0 then none
  else some (gfExpTable.getD ((255 - gfLogTable.getD a (-1))).toNat 0)

/-- Source `gfDivide` (part_000 lines 105-113): `0` when the dividend is `0`,
panic (modelled as `none`) when the divisor is `0`, otherwise
`gfMultiply a (gfInverse b)`. -/
def gfDivide (a b : Nat) : Option Nat :=
  if a = 0 then some 0
  else if b = 0 then none
  else (gfInverse b).map (gfMultiply a)

/-- Modelled from the spec: `α^i` in the field GF(2^8) defined by the
polynomial `x^8+x^4+x^3+x^2+1` (= 285) with generator `α = 2`, computed by
repeated doubling with reduction.  This is the mathematical reference the
hard-coded tables are compared against. -/
def alphaPow : Nat → Nat
  | 0 => 1
  | i + 1 =>
    let d := 2 * alphaPow i
    if 256 ≤ d then d ^^^ 285 else d

/-- Helper combinator: concatenation of the images of a list-valued function,
in order (the shape of the Go loops that append one chunk per element). -/
def catMap {α β : Type} (f : α → List β) : List α → List β
  | [] => []
  | x :: xs => f x ++ catMap f xs

/-- Modelled from the spec: bit-stream sub-range view `[start, end)`
(`bitset.Substr`; the bitset package is not under src/). -/
def bsubstr (l : List Bool) (s e : Nat) : List Bool := (l.drop s).take (e - s)

/-- Modelled from the spec: a byte unpacked into 8 bits, most-significant bit
first (the bitset package is not under src/). -/
def byteToBits (v : Nat) : List Bool := (List.range 8).map (fun i => v.testBit (7 - i))

/-- Modelled from the spec: append raw bytes, most-significant bit first per
byte (`bitset.AppendBytes`). -/
def bytesToBits (bs : List Nat) : List Bool := catMap byteToBits bs

/-- Modelled from the spec: pack up to 8 bits, most-significant bit first,
into a byte value. -/
def bitsToByte (bits : List Bool) : Nat :=
  bits.foldl (fun acc b => 2 * acc + (if b then 1 else 0)) 0

/-- Modelled from the spec: pack a bit stream to bytes, MSB-first,
right-padding the final byte with zeros if the length is not a multiple of 8
(`bitset.Bytes`). -/
def bitsToBytes : List Bool → List Nat
  | [] => []
  | b :: rest =>
    let chunk := (b :: rest).take 8
    bitsToByte (chunk ++ List.replicate (8 - chunk.length) false) :: bitsToBytes ((b :: rest).drop 8)
termination_by l => l.length
decreasing_by simp; omega

/-- Modelled from the spec: polynomial addition over GF(2^8) is
coefficientwise XOR (`gfPolyAdd`; gf_poly.go is not under src/).
Coefficients are stored in ascending degree order. -/
def gfPolyAdd : List Nat → List Nat → List Nat
  | [], b => b
  | a, [] => a
  | a0 :: as, b0 :: bs => gfAdd a0 b0 :: gfPolyAdd as bs

/-- Modelled from the spec: multiply every coefficient by a scalar. -/
def gfPolyScale (c : Nat) (b : List Nat) : List Nat := b.map (gfMultiply c)

/-- Modelled from the spec: "Multiply: schoolbook convolution in GF(2^8);
result length = len(a)+len(b)-1" (`gfPolyMultiply`). -/
def gfPolyMultiply : List Nat → List Nat → List Nat
  | [], b => List.replicate (b.length - 1) 0
  | a0 :: as, b => gfPolyAdd (gfPolyScale a0 b) (0 :: gfPolyMultiply as b)

/-- Modelled from the spec: `monomial(c, d)` returns `c·x^d`
(`newGFPolyMonomial`). -/
def newGFPolyMonomial (c d : Nat) : List Nat := List.replicate d 0 ++ [c]

/-- Modelled from the spec: "build a polynomial whose coefficients, in
descending degree order, match the input byte sequence", so the first input
byte becomes the highest-degree coefficient (`newGFPolyFromData`). -/
def newGFPolyFromData (data : List Bool) : List Nat := (bitsToBytes data).reverse

/-- Modelled from the spec: "emit the top `n` coefficients as bytes,
zero-padding on the left if degree < n-1" (`gfPoly.data`). -/
def polyData (term : List Nat) (n : Nat) : List Nat :=
  List.replicate (n - term.length) 0 ++ (term.drop (term.length - n)).reverse

/-- Modelled from the spec: one long-division step: multiply the divisor by
the leading coefficient of the residue, align it at the residue's top term,
XOR, and drop the (now cancelled) top term. -/
def remStep (b r : List Nat) : List Nat :=
  (gfPolyAdd r (List.replicate (r.length - b.length) 0 ++ gfPolyScale (r.getLastD 0) b)).dropLast

/-- Modelled from the spec: "Remainder: long-division of `a` by `b` (with
deg(b) ≤ deg(a)); iterate deg(a)-deg(b)+1 times, each step multiplying `b` by
the leading coefficient of the current residue and XORing"
(`gfPolyRemainder`). -/
def gfPolyRemainder (a b : List Nat) : List Nat :=
  (List.range (a.length + 1 - b.length)).foldl (fun r _ => remStep b r) a

/-- Go array read `gfExpTable[i]`: bounds-checked, so an out-of-range index
is a runtime panic (modelled as `none`). -/
def gfExpAt (i : Nat) : Option Nat := gfExpTable[i]?

/-- One iteration of the `rsGeneratorPoly` loop (part_001 lines 29-32):
multiply the accumulated generator by `x + gfExpTable[i]`; the table read
panics when `i` is out of range. -/
def rsGenStep (g : Option (List Nat)) (i : Nat) : Option (List Nat) :=
  match gfExpAt i with
  | none => none
  | some e =>
    match g with
    | some gen => some (gfPolyMultiply gen [e, 1])
    | none => none

/-- Source `rsGeneratorPoly` (part_001 lines 22-34): panics when
`degree < 2` (modelled as `none`), otherwise iteratively multiplies
`x + gfExpTable[i]` for `i = 0..degree-1` starting from the constant
polynomial 1. -/
def rsGeneratorPoly (degree : Nat) : Option (List Nat) :=
  if degree < 2 then none
  else (List.range degree).foldl rsGenStep (some [1])

/-- The value the `rsGeneratorPoly` loop computes when no table index is out
of range, written with total table reads. -/
def rsGenProduct (degree : Nat) : List Nat :=
  (List.range degree).foldl (fun g i => gfPolyMultiply g [gfExpTable.getD i 0, 1]) [1]

/-- The claim's formulation of the generator: the product
`∏_{i=0}^{degree-1} (x + α^i)` with the mathematical `α^i` of the field. -/
def rsGenSpecProduct (degree : Nat) : List Nat :=
  (List.range degree).foldl (fun g i => gfPolyMultiply g [alphaPow i, 1]) [1]

/-- Source `reedsolomon.Encode` (part_001 lines 8-20): build the message
polynomial from the data bits, multiply by `x^numECBytes`, divide by the
generator polynomial, and append the remainder packed as `numECBytes` bytes
to a clone of the input bit stream. -/
def rsEncode (data : List Bool) (numECBytes : Nat) : Option (List Bool) :=
  let ecpoly := gfPolyMultiply (newGFPolyFromData data) (newGFPolyMonomial 1 numECBytes)
  match rsGeneratorPoly numECBytes with
  | none => none
  | some generator =>
    some (data ++ bytesToBits (polyData (gfPolyRemainder ecpoly generator) numECBytes))

/-- Source pad codeword `0b11101100` (qrcode.go line 295). -/
def padCW0 : List Bool := [true, true, true, false, true, true, false, false]

/-- Source pad codeword `0b00010001` (qrcode.go line 296). -/
def padCW1 : List Bool := [false, false, false, true, false, false, false, true]

/-- Modelled from the spec: "Pad to the nearest codeword boundary" — the
number of zero bits needed to reach the next multiple of 8
(`qrCodeVersion.numBitsToPadToCodeword`; the version catalog is not under
src/). -/
def numBitsToPadToCodeword (len : Nat) : Nat := (8 - len % 8) % 8

/-- The pad-codeword loop of `addPadding` (qrcode.go lines 300-305): while
`numDataBits - len ≥ 8`, append the two pad codewords alternately. -/
def padLoop (numDataBits : Nat) (d : List Bool) (i : Nat) : List Bool :=
  if h : 8 ≤ numDataBits - d.length then
    padLoop numDataBits (d ++ (if i = 0 then padCW0 else padCW1)) (1 - i)
  else d
termination_by numDataBits - d.length
decreasing_by
  simp only [List.length_append]
  split <;> simp [padCW0, padCW1] <;> omega

/-- Source `addPadding` (qrcode.go lines 283-310) as a function of the
version's `numDataBits`: early return when already full, zero bits to the
next codeword boundary, alternating pad codewords, and the final
length-check panic modelled as `none`. -/
def addPadding (numDataBits : Nat) (data : List Bool) : Option (List Bool) :=
  if data.length = numDataBits then some data
  else
    if (padLoop numDataBits
          (data ++ List.replicate (numBitsToPadToCodeword data.length) false) 0).length
        = numDataBits then
      some (padLoop numDataBits
        (data ++ List.replicate (numBitsToPadToCodeword data.length) false) 0)
    else none

/-- One iteration of the mask-selection loop in `QRCode.encode` (qrcode.go
lines 114-137): the state is `none` while `q.symbol == nil`, otherwise
`some (mask, penalty)`; a new mask is taken when the symbol is still nil or
its penalty score is strictly smaller.  `buildRegularSymbol` and
`penaltyScore` are not under src/, so a symbol is modelled by its mask index
and the per-mask penalty score `p` is an arbitrary function. -/
def maskStep (p : Nat → Nat) (st : Option (Nat × Nat)) (k : Nat) : Option (Nat × Nat) :=
  match st with
  | none => some (k, p k)
  | some (m, pen) => if p k < pen then some (k, p k) else some (m, pen)

/-- The mask-selection loop of `QRCode.encode` on a fresh `QRCode`
(`q.symbol == nil`): all eight masks `0..7` are evaluated in order. -/
def selectMask (p : Nat → Nat) : Option (Nat × Nat) :=
  (List.range 8).foldl (maskStep p) none

/-- A heap of bitsets: Go bitset pointers are modelled as indices into the
heap, which makes in-place mutation and aliasing observable so that frame
effects can be stated. -/
structure BitsetHeap where
  cells : List (List Bool)

/-- Dereference a bitset pointer (out-of-heap reads default to the empty
stream; the claims only use valid pointers). -/
def heapRead (h : BitsetHeap) (r : Nat) : List Bool := h.cells.getD r []

/-- Modelled from the spec: `bitset.Clone` allocates a fresh bitset holding
a copy of the pointee's bits. -/
def heapClone (h : BitsetHeap) (r : Nat) : BitsetHeap × Nat :=
  (⟨h.cells ++ [heapRead h r]⟩, h.cells.length)

/-- Modelled from the spec: `AppendBytes` appends the bytes MSB-first, in
place, to the bitset the pointer designates. -/
def heapAppendBytes (h : BitsetHeap) (r : Nat) (bs : List Nat) : BitsetHeap :=
  ⟨h.cells.set r (heapRead h r ++ bytesToBits bs)⟩

/-- Source `reedsolomon.Encode` (part_001 lines 8-20) with the caller's
bitset heap explicit: the input bitset `r` is only read
(`newGFPolyFromData`, `Clone`); the EC bytes are appended to the fresh
clone, which is returned. -/
def rsEncodeHeap (h : BitsetHeap) (r : Nat) (numECBytes : Nat) :
    Option (BitsetHeap × Nat) :=
  let ecpoly := gfPolyMultiply (newGFPolyFromData (heapRead h r))
    (newGFPolyMonomial 1 numECBytes)
  match rsGeneratorPoly numECBytes with
  | none => none
  | some generator =>
    let hc := heapClone h r
    some (heapAppendBytes hc.1 hc.2
      (polyData (gfPolyRemainder ecpoly generator) numECBytes), hc.2)

/-- The encoder's error surface: `ContentTooLong` is the error built at
qrcode.go line 76; `InvalidRecoveryLevel` appears in the spec's error
surface but nowhere in the code. -/
inductive QRErr where
  | contentTooLong
  | invalidRecoveryLevel
deriving DecidableEq

/-- Modelled from the spec: a version fits when the catalog has an entry for
`(version, level)` whose `num_data_bits` capacity is at least the required
encoded length (the version catalog and `chooseQRCodeVersion` are not under
src/). -/
def versionFits (catalog : Nat → Nat → Option Nat) (level reqLen v : Nat) : Bool :=
  match catalog v level with
  | some cap => decide (reqLen ≤ cap)
  | none => false

/-- Modelled from the spec: "pick the smallest version in the chosen band
whose num_data_bits ≥ encoded length": scan the band's versions in
increasing order and return the first fit (`chooseQRCodeVersion`). -/
def chooseQRCodeVersion (catalog : Nat → Nat → Option Nat) (level lo hi reqLen : Nat) :
    Option Nat :=
  (List.range' lo (hi + 1 - lo)).find? (versionFits catalog level reqLen)

/-- The version band index (0, 1 or 2) a version belongs to: bands are 1–9,
10–26 and 27–40. -/
def bandOf (v : Nat) : Nat := if v ≤ 9 then 0 else if v ≤ 26 then 1 else 2

/-- Source `New` (qrcode.go lines 50-94): try the three encoder bands in
order, break at the first band whose chooser returns a version, and report
the content-too-long error when none does.  The data encoder is modelled
from the spec as total (byte mode accepts any octet), with `encLen b` the
encoded length of the content under band `b`'s encoder; the catalog is an
arbitrary `(version, level) ↦ num_data_bits` partial table. -/
def NewModel (catalog : Nat → Nat → Option Nat) (encLen : Nat → Nat) (level : Nat) :
    Except QRErr Nat :=
  match chooseQRCodeVersion catalog level 1 9 (encLen 0) with
  | some v => .ok v
  | none =>
    match chooseQRCodeVersion catalog level 10 26 (encLen 1) with
    | some v => .ok v
    | none =>
      match chooseQRCodeVersion catalog level 27 40 (encLen 2) with
      | some v => .ok v
      | none => .error .contentTooLong

/-- Whether a version's capacity fits the content, for the band the version
lives in. -/
def fitsAt (catalog : Nat → Nat → Option Nat) (encLen : Nat → Nat) (level v : Nat) : Bool :=
  versionFits catalog level (encLen (bandOf v)) v

/-- One group of the version's block layout (spec 4.F; the version catalog
is not under src/): `numBlocks` blocks, each with `numCodewords` total and
`numDataCodewords` data codewords. -/
structure blockGroup where
  numBlocks : Nat
  numCodewords : Nat
  numDataCodewords : Nat

/-- A data block as built by `encodeBlocks` (qrcode.go lines 208-211): the
RS-extended bit stream and the offset at which its EC bits start. -/
structure dataBlock where
  data : List Bool
  ecStartOffset : Nat

/-- The per-block walk order of `encodeBlocks` (qrcode.go lines 219-231):
block groups in order, `numBlocks` blocks each; every entry is the pair
`(numDataCodewords, numCodewords - numDataCodewords)`. -/
def groupPlan (groups : List blockGroup) : List (Nat × Nat) :=
  catMap (fun g => List.replicate g.numBlocks
    (g.numDataCodewords, g.numCodewords - g.numDataCodewords)) groups

/-- Total payload bit count the plan consumes: `Σ k_i · 8`. -/
def sumKBits (plan : List (Nat × Nat)) : Nat :=
  plan.foldr (fun p acc => p.1 * 8 + acc) 0

/-- The block-splitting loop of `encodeBlocks` (qrcode.go lines 215-231):
carry the running `end` offset, give each block the payload bits
`[start, start + numDataCodewords*8)` RS-encoded, and record
`ecStartOffset = end - start`; `none` propagates an RS panic. -/
def makeBlocks (payload : List Bool) : Nat → List (Nat × Nat) → Option (List dataBlock)
  | _, [] => some []
  | e, (k, ec) :: rest =>
    match rsEncode (bsubstr payload e (e + k * 8)) ec, makeBlocks payload (e + k * 8) rest with
    | some d, some bs => some (⟨d, (e + k * 8) - e⟩ :: bs)
    | _, _ => none

/-- Largest data-section offset over the blocks (bound of the data
interleaving loop). -/
def offBound (blocks : List dataBlock) : Nat :=
  blocks.foldr (fun b acc => max b.ecStartOffset acc) 0

/-- Largest EC-section length over the blocks (bound of the EC interleaving
loop). -/
def ecBound (blocks : List dataBlock) : Nat :=
  blocks.foldr (fun b acc => max (b.data.length - b.ecStartOffset) acc) 0

/-- The data-interleaving loop of `encodeBlocks` (qrcode.go lines 238-251):
for `i = 0, 8, 16, …` append the 8-bit chunk at offset `i` of every block
whose data section still extends past `i`, in block order; stop at the first
`i` where no block contributed (`working` stays false). -/
def dataLoopAux (blocks : List dataBlock) (i : Nat) : List Bool :=
  if h : blocks.any (fun b => decide (i < b.ecStartOffset)) = true then
    catMap (fun b => if i < b.ecStartOffset then bsubstr b.data i (i + 8) else []) blocks
      ++ dataLoopAux blocks (i + 8)
  else []
termination_by offBound blocks - i
decreasing_by
  simp only [List.any_eq_true, decide_eq_true_eq] at h
  obtain ⟨b, hb, hlt⟩ := h
  have hle : ∀ bl : List dataBlock, b ∈ bl → b.ecStartOffset ≤ offBound bl := by
    intro bl
    induction bl with
    | nil => intro hmem; cases hmem
    | cons x xs ih =>
      intro hmem
      rcases List.mem_cons.mp hmem with h1 | h1
      · subst h1
        simp only [offBound, List.foldr_cons]
        omega
      · have := ih h1
        simp only [offBound, List.foldr_cons] at this ⊢
        omega
  have := hle blocks hb
  omega

/-- The EC-interleaving loop of `encodeBlocks` (qrcode.go lines 254-268):
for `i = 0, 8, …` append, in block order, the chunk at `i + ecStartOffset`
of every block that still has EC bits there. -/
def ecLoopAux (blocks : List dataBlock) (i : Nat) : List Bool :=
  if h : blocks.any (fun b => decide (i + b.ecStartOffset < b.data.length)) = true then
    catMap (fun b => if i + b.ecStartOffset < b.data.length then
      bsubstr b.data (i + b.ecStartOffset) (i + b.ecStartOffset + 8) else []) blocks
      ++ ecLoopAux blocks (i + 8)
  else []
termination_by ecBound blocks - i
decreasing_by
  simp only [List.any_eq_true, decide_eq_true_eq] at h
  obtain ⟨b, hb, hlt⟩ := h
  have hle : ∀ bl : List dataBlock, b ∈ bl →
      b.data.length - b.ecStartOffset ≤ ecBound bl := by
    intro bl
    induction bl with
    | nil => intro hmem; cases hmem
    | cons x xs ih =>
      intro hmem
      rcases List.mem_cons.mp hmem with h1 | h1
      · subst h1
        simp only [ecBound, List.foldr_cons]
        omega
      · have := ih h1
        simp only [ecBound, List.foldr_cons] at this ⊢
        omega
  have := hle blocks hb
  omega

/-- Source `encodeBlocks` (qrcode.go lines 206-274): split the payload into
RS-extended blocks per the version's block layout, interleave the data
sections byte-column by byte-column, then the EC sections, then append the
remainder bits. -/
def encodeBlocks (payload : List Bool) (groups : List blockGroup) (numRemainderBits : Nat) :
    Option (List Bool) :=
  match makeBlocks payload 0 (groupPlan groups) with
  | none => none
  | some blocks =>
    some (dataLoopAux blocks 0 ++ ecLoopAux blocks 0 ++ List.replicate numRemainderBits false)

/-- One block as the claim describes it: `k` data codewords, `ec` EC
codewords, the payload segment and the Reed–Solomon EC bits (the remainder
of `M·x^ec` modulo the degree-`ec` generator, packed as `ec` bytes). -/
structure specBlock where
  k : Nat
  ec : Nat
  seg : List Bool
  ecBits : List Bool

/-- The claim's reading of the split: walk the block layout in order, give
each block its `k·8` payload bits and its RS EC bytes. -/
def specBlockList (payload : List Bool) : Nat → List (Nat × Nat) → List specBlock
  | _, [] => []
  | e, (k, ec) :: rest =>
    { k := k, ec := ec, seg := bsubstr payload e (e + k * 8),
      ecBits := bytesToBits (polyData (gfPolyRemainder
        (gfPolyMultiply (newGFPolyFromData (bsubstr payload e (e + k * 8)))
          (newGFPolyMonomial 1 ec)) (rsGenProduct ec)) ec) } ::
      specBlockList payload (e + k * 8) rest

/-- Largest data-codeword count over the blocks. -/
def maxK (ts : List specBlock) : Nat := ts.foldr (fun t acc => max t.k acc) 0

/-- Largest EC-codeword count over the blocks. -/
def maxE (ts : List specBlock) : Nat := ts.foldr (fun t acc => max t.ec acc) 0

/-- The claim's output: for each byte column `c = 0, 1, …` and each block in
block-index order, that block's `c`-th data byte when `c < k_i`; then all
blocks' EC bytes interleaved the same column-major way; then exactly
`numRemainderBits` zero bits. -/
def specEncodeBlocks (payload : List Bool) (groups : List blockGroup)
    (numRemainderBits : Nat) : List Bool :=
  let ts := specBlockList payload 0 (groupPlan groups)
  catMap (fun c => catMap (fun t =>
      if c < t.k then bsubstr t.seg (8 * c) (8 * c + 8) else []) ts)
    (List.range (maxK ts))
  ++ catMap (fun c => catMap (fun t =>
      if c < t.ec then bsubstr t.ecBits (8 * c) (8 * c + 8) else []) ts)
    (List.range (maxE ts))
  ++ List.replicate numRemainderBits false

/-- The map from the claim's block view to the source's `dataBlock`: the
block's stream is the segment with the EC bits appended, and the EC offset
is `k·8`. -/
def toBlock (t : specBlock) : dataBlock := ⟨t.seg ++ t.ecBits, t.k * 8⟩

lemma all_range {n : Nat} {p : Nat → Bool} (h : (List.range n).all p = true) :
    ∀ i, i < n → p i = true := fun i hi =>
  List.all_eq_true.mp h i (List.mem_range.mpr hi)

lemma chkExp : (List.range 256).all
    (fun i => gfExpTable.getD i 0 == alphaPow i) = true := by decide

lemma chkLogExp : (List.range 255).all
    (fun i => gfLogTable.getD (alphaPow i) (-1) == Int.ofNat i) = true := by decide

lemma chkLog : (List.range 256).all (fun v =>
    (v == 0) || (decide (0 ≤ gfLogTable.getD v (-1)) &&
      decide ((gfLogTable.getD v (-1)).toNat < 255) &&
      (alphaPow (gfLogTable.getD v (-1)).toNat == v))) = true := by decide

lemma tableExp_eq_alphaPow : ∀ i, i < 256 → gfExpTable.getD i 0 = alphaPow i := by
  intro i hi
  simpa using all_range chkExp i hi

lemma tableLogExp : ∀ i, i < 255 → gfLogTable.getD (alphaPow i) (-1) = Int.ofNat i := by
  intro i hi
  simpa using all_range chkLogExp i hi

lemma tableLog_spec : ∀ v, 0 < v → v < 256 →
    0 ≤ gfLogTable.getD v (-1) ∧ (gfLogTable.getD v (-1)).toNat < 255 ∧
      alphaPow (gfLogTable.getD v (-1)).toNat = v := by
  intro v hv hv'
  have h := all_range chkLog v hv'
  simp only [Bool.or_eq_true, Bool.and_eq_true, beq_iff_eq, decide_eq_true_eq] at h
  rcases h with h0 | h
  · omega
  · exact ⟨h.1.1, h.1.2, h.2⟩

/-- C3: the hard-coded tables are the true field tables of GF(2^8) defined by
`x^8+x^4+x^3+x^2+1` with generator `α = 2`: `gfExpTable[i] = α^i` for every
`i ∈ 0..254`, `gfExpTable[255] = gfExpTable[0] = 1` (sentinel), and for every
nonzero `v`, `gfLogTable[v]` is the unique `i ∈ 0..254` with `α^i = v`. -/
theorem gfTables_match_field :
    (∀ i, i < 255 → gfExpTable.getD i 0 = alphaPow i) ∧
    gfExpTable.getD 255 0 = 1 ∧ gfExpTable.getD 0 0 = 1 ∧
    (∀ v, 0 < v → v < 256 → ∃ i, gfLogTable.getD v (-1) = Int.ofNat i ∧ i < 255 ∧
      alphaPow i = v ∧ ∀ j, j < 255 → alphaPow j = v → j = i) := by
  refine ⟨fun i hi => tableExp_eq_alphaPow i (by omega), by decide, by decide, ?_⟩
  intro v hv hv'
  obtain ⟨hnn, hlt, hpow⟩ := tableLog_spec v hv hv'
  refine ⟨(gfLogTable.getD v (-1)).toNat, (Int.toNat_of_nonneg hnn).symm, hlt, hpow, ?_⟩
  intro j hj hjv
  have h1 := tableLogExp j hj
  rw [hjv] at h1
  rw [h1]
  simp

/-- Witness for C3 at `i = 8` and `v = 7`. -/
theorem gfTables_match_field_witness :
    gfExpTable.getD 8 0 = alphaPow 8 ∧
    (∃ i, gfLogTable.getD 7 (-1) = Int.ofNat i ∧ i < 255 ∧ alphaPow i = 7 ∧
      ∀ j, j < 255 → alphaPow j = 7 → j = i) :=
  ⟨gfTables_match_field.1 8 (by decide), gfTables_match_field.2.2.2 7 (by decide) (by decide)⟩

/-- C8: `gfDivide a b` returns `0` whenever `a = 0` (for every `b`, including
`b = 0`); it panics (modelled as `none`) exactly when `b = 0` and `a ≠ 0`;
otherwise it returns `gfMultiply a (gfInverse b)`.  In particular
`div(0,5) = 0` and `div(5,0)` panics. -/
theorem gfDivide_spec :
    (∀ b, gfDivide 0 b = some 0) ∧
    (∀ a b, gfDivide a b = none ↔ (b = 0 ∧ a ≠ 0)) ∧
    (∀ a b, gfDivide (a + 1) (b + 1) = (gfInverse (b + 1)).map (gfMultiply (a + 1))) ∧
    gfDivide 0 5 = some 0 ∧ gfDivide 5 0 = none := by
  refine ⟨fun b => by simp [gfDivide], ?_, ?_, by decide, by decide⟩
  · intro a b
    by_cases ha : a = 0
    · subst ha; simp [gfDivide]
    · by_cases hb : b = 0
      · subst hb; simp [gfDivide, ha]
      · simp [gfDivide, gfInverse, ha, hb]
  · intro a b
    simp [gfDivide]

lemma gfPolyAdd_length : ∀ a b : List Nat, (gfPolyAdd a b).length = max a.length b.length
  | [], b => by simp [gfPolyAdd]
  | a0 :: as, [] => by simp [gfPolyAdd]
  | a0 :: as, b0 :: bs => by
    simp [gfPolyAdd, gfPolyAdd_length as bs]
    omega

lemma gfPolyMultiply_length : ∀ (a b : List Nat), b ≠ [] →
    (gfPolyMultiply a b).length = a.length + b.length - 1
  | [], b, _ => by simp [gfPolyMultiply]
  | a0 :: as, b, hb => by
    have ih := gfPolyMultiply_length as b hb
    have hb1 : 1 ≤ b.length := List.length_pos.mpr hb
    simp [gfPolyMultiply, gfPolyAdd_length, gfPolyScale, ih]
    omega

lemma getLast?_cons_ne {α : Type} (c : α) {l : List α} (h : l ≠ []) :
    (c :: l).getLast? = l.getLast? := by
  cases l with
  | nil => exact absurd rfl h
  | cons x xs => exact List.getLast?_cons_cons

lemma gfPolyAdd_getLast?_right : ∀ (a b : List Nat), a.length < b.length →
    (gfPolyAdd a b).getLast? = b.getLast?
  | [], b, _ => by cases b <;> rfl
  | a0 :: as, [], h => by simp at h
  | a0 :: as, b0 :: bs, h => by
    have hlen : as.length < bs.length := by simpa using h
    have hbs : bs ≠ [] := by
      intro hb
      subst hb
      simp at hlen
    have hadd : gfPolyAdd as bs ≠ [] := by
      apply List.length_pos.mp
      rw [gfPolyAdd_length]
      have := List.length_pos.mpr hbs
      omega
    show (gfAdd a0 b0 :: gfPolyAdd as bs).getLast? = (b0 :: bs).getLast?
    rw [getLast?_cons_ne _ hadd, getLast?_cons_ne _ hbs]
    exact gfPolyAdd_getLast?_right as bs hlen

lemma gfPolyMultiply_xplus_getLast? : ∀ (a : List Nat) (e : Nat),
    a.getLast? = some 1 → (gfPolyMultiply a [e, 1]).getLast? = some 1
  | [], _, h => by simp at h
  | [x], e, h => by
    have hx : x = 1 := by simpa using h
    subst hx
    show (gfPolyAdd (gfPolyScale 1 [e, 1]) (0 :: gfPolyMultiply [] [e, 1])).getLast? = some 1
    simp [gfPolyScale, gfPolyMultiply, gfPolyAdd, gfAdd]
    decide
  | x :: y :: t, e, h => by
    have hyt : (y :: t).getLast? = some 1 := by
      rw [← getLast?_cons_ne x (by simp)]
      exact h
    have ih := gfPolyMultiply_xplus_getLast? (y :: t) e hyt
    have hmul_len : (gfPolyMultiply (y :: t) [e, 1]).length = t.length + 2 := by
      rw [gfPolyMultiply_length _ _ (by simp)]
      simp
    have hmul_ne : gfPolyMultiply (y :: t) [e, 1] ≠ [] := by
      apply List.length_pos.mp
      omega
    have hlt : (gfPolyScale x [e, 1]).length < (0 :: gfPolyMultiply (y :: t) [e, 1]).length := by
      simp [gfPolyScale, hmul_len]
    show (gfPolyAdd (gfPolyScale x [e, 1]) (0 :: gfPolyMultiply (y :: t) [e, 1])).getLast? = some 1
    rw [gfPolyAdd_getLast?_right _ _ hlt, getLast?_cons_ne _ hmul_ne]
    exact ih

lemma gfExpTable_length : gfExpTable.length = 256 := by decide

lemma gfExpAt_lt {i : Nat} (h : i < 256) : gfExpAt i = some (gfExpTable.getD i 0) := by
  have hl : i < gfExpTable.length := by rw [gfExpTable_length]; omega
  have h1 : gfExpTable[i]? = some gfExpTable[i] := List.getElem?_eq_getElem hl
  have h2 : gfExpTable.getD i 0 = gfExpTable[i] := List.getD_eq_getElem gfExpTable 0 hl
  rw [gfExpAt, h1, h2]

lemma rsGenProduct_succ (n : Nat) :
    rsGenProduct (n + 1) = gfPolyMultiply (rsGenProduct n) [gfExpTable.getD n 0, 1] := by
  rw [rsGenProduct, List.range_succ, List.foldl_append]
  rfl

lemma rsGenSpecProduct_succ (n : Nat) :
    rsGenSpecProduct (n + 1) = gfPolyMultiply (rsGenSpecProduct n) [alphaPow n, 1] := by
  rw [rsGenSpecProduct, List.range_succ, List.foldl_append]
  rfl

lemma rsGen_fold (d : Nat) (hd : d ≤ 256) :
    (List.range d).foldl rsGenStep (some [1]) = some (rsGenProduct d) ∧
    rsGenProduct d = rsGenSpecProduct d ∧
    (rsGenProduct d).length = d + 1 ∧
    (rsGenProduct d).getLast? = some 1 := by
  induction d with
  | zero => exact ⟨rfl, rfl, rfl, rfl⟩
  | succ n ih =>
    obtain ⟨h1, h2, h3, h4⟩ := ih (by omega)
    have hn : n < 256 := by omega
    refine ⟨?_, ?_, ?_, ?_⟩
    · rw [List.range_succ, List.foldl_append, h1]
      simp only [List.foldl_cons, List.foldl_nil, rsGenStep, gfExpAt_lt hn]
      rw [rsGenProduct_succ]
    · rw [rsGenProduct_succ, rsGenSpecProduct_succ, h2, tableExp_eq_alphaPow n hn]
    · rw [rsGenProduct_succ, gfPolyMultiply_length _ _ (by simp), h3]
      simp only [List.length_cons, List.length_nil]
      omega
    · rw [rsGenProduct_succ]
      exact gfPolyMultiply_xplus_getLast? _ _ h4

lemma rsGenStep_none (i : Nat) : rsGenStep none i = none := by
  unfold rsGenStep
  cases gfExpAt i <;> rfl

lemma foldl_rsGenStep_none : ∀ l : List Nat, l.foldl rsGenStep none = none
  | [] => rfl
  | x :: xs => by
    rw [List.foldl_cons, rsGenStep_none]
    exact foldl_rsGenStep_none xs

lemma gfExpAt_256 : gfExpAt 256 = none := by decide

lemma rsGeneratorPoly_oob {d : Nat} (hd : 256 < d) : rsGeneratorPoly d = none := by
  unfold rsGeneratorPoly
  rw [if_neg (by omega)]
  have hsplit : d = 257 + (d - 257) := by omega
  rw [hsplit, List.range_add, List.foldl_append]
  have h257 : (List.range 257).foldl rsGenStep (some [1]) = none := by
    rw [show (257 : Nat) = 256 + 1 from rfl, List.range_succ, List.foldl_append]
    simp only [List.foldl_cons, List.foldl_nil]
    unfold rsGenStep
    rw [gfExpAt_256]
  rw [h257]
  exact foldl_rsGenStep_none _

lemma rsGeneratorPoly_ok {d : Nat} (h2 : 2 ≤ d) (h256 : d ≤ 256) :
    rsGeneratorPoly d = some (rsGenProduct d) := by
  unfold rsGeneratorPoly
  rw [if_neg (by omega)]
  exact (rsGen_fold d h256).1

/-- C4 (amended): `rsGeneratorPoly degree` panics exactly when `degree < 2`
or `degree > 256` (the latter because the loop reads `gfExpTable[i]` out of
range); for every `2 ≤ degree ≤ 256` it returns the polynomial equal to the
product over `i = 0..degree-1` of `(x + α^i)`, whose degree equals the
requested degree (length `degree + 1` with leading coefficient 1). -/
theorem rsGeneratorPoly_gen (d : Nat) :
    (rsGeneratorPoly d = none ↔ (d < 2 ∨ 256 < d)) ∧
    (2 ≤ d → d ≤ 256 → ∃ g, rsGeneratorPoly d = some g ∧ g = rsGenSpecProduct d ∧
      g.length = d + 1 ∧ g.getLast? = some 1) := by
  constructor
  · constructor
    · intro hnone
      by_contra hc
      push_neg at hc
      obtain ⟨h2, h256⟩ := hc
      rw [rsGeneratorPoly_ok (by omega) (by omega)] at hnone
      exact Option.noConfusion hnone
    · intro h
      rcases h with h | h
      · unfold rsGeneratorPoly
        rw [if_pos h]
      · exact rsGeneratorPoly_oob h
  · intro h2 h256
    obtain ⟨-, hspec, hlen, hlast⟩ := rsGen_fold d h256
    exact ⟨rsGenProduct d, rsGeneratorPoly_ok h2 h256, hspec, hlen, hlast⟩

/-- C4 counterexample: at degree 257 (which is ≥ 2) the source panics via an
out-of-range `gfExpTable` read, contradicting "panics exactly when
degree < 2". -/
theorem rsGeneratorPoly_gen_counterexample :
    rsGeneratorPoly 257 = none ∧ ¬ (257 < 2) :=
  ⟨rsGeneratorPoly_oob (by omega), by omega⟩

/-- Witness for the amended C4 at degree 5. -/
theorem rsGeneratorPoly_gen_witness :
    ∃ g, rsGeneratorPoly 5 = some g ∧ g = rsGenSpecProduct 5 ∧
      g.length = 5 + 1 ∧ g.getLast? = some 1 :=
  (rsGeneratorPoly_gen 5).2 (by omega) (by omega)

lemma byteToBits_length (v : Nat) : (byteToBits v).length = 8 := by
  simp [byteToBits]

lemma bytesToBits_length : ∀ bs : List Nat, (bytesToBits bs).length = 8 * bs.length
  | [] => rfl
  | b :: bs => by
    show (byteToBits b ++ bytesToBits bs).length = 8 * (bs.length + 1)
    rw [List.length_append, byteToBits_length, bytesToBits_length bs]
    ring

lemma polyData_length (t : List Nat) (n : Nat) : (polyData t n).length = n := by
  simp [polyData]
  omega

/-- C1 (amended): for every input bit stream and every
`2 ≤ numECBytes ≤ 256`, `reedsolomon.Encode` returns the input bits
unchanged followed by exactly `numECBytes` bytes equal to the remainder of
`M(x)·x^numECBytes` divided by the generator polynomial, where `M` is the
polynomial whose highest-degree coefficient is the first input byte; the
total length is `data.Len() + 8·numECBytes`.  (For `numECBytes > 256` the
source panics, see the counterexample.) -/
theorem rsEncode_corrected (data : List Bool) (n : Nat) (h2 : 2 ≤ n) (h256 : n ≤ 256) :
    ∃ g res, rsGeneratorPoly n = some g ∧ rsEncode data n = some res ∧
      res = data ++ bytesToBits (polyData (gfPolyRemainder
        (gfPolyMultiply (newGFPolyFromData data) (newGFPolyMonomial 1 n)) g) n) ∧
      (newGFPolyFromData data).getLast? = (bitsToBytes data).head? ∧
      res.take data.length = data ∧
      res.length = data.length + 8 * n := by
  have hg := rsGeneratorPoly_ok h2 h256
  refine ⟨rsGenProduct n,
    data ++ bytesToBits (polyData (gfPolyRemainder
      (gfPolyMultiply (newGFPolyFromData data) (newGFPolyMonomial 1 n)) (rsGenProduct n)) n),
    hg, ?_, rfl, ?_, ?_, ?_⟩
  · simp [rsEncode, hg]
  · simp [newGFPolyFromData]
  · exact List.take_left _ _
  · rw [List.length_append, bytesToBits_length, polyData_length]

/-- C1 counterexample: at `numECBytes = 257` (which is ≥ 2) Encode panics
(out-of-range `gfExpTable` read inside `rsGeneratorPoly`) instead of
returning a bit stream. -/
theorem rsEncode_corrected_counterexample :
    rsEncode (List.replicate 8 true) 257 = none ∧
    ¬ ∃ res, rsEncode (List.replicate 8 true) 257 = some res := by
  have h : rsEncode (List.replicate 8 true) 257 = none := by
    simp [rsEncode, rsGeneratorPoly_oob (show (256 : Nat) < 257 by omega)]
  refine ⟨h, ?_⟩
  rintro ⟨res, hx⟩
  rw [h] at hx
  exact Option.noConfusion hx

/-- Witness for the amended C1 at one data byte `0xA1` and 2 EC bytes. -/
theorem rsEncode_corrected_witness :
    ∃ g res, rsGeneratorPoly 2 = some g ∧
      rsEncode [true, false, true, false, false, false, false, true] 2 = some res ∧
      res = [true, false, true, false, false, false, false, true] ++
        bytesToBits (polyData (gfPolyRemainder
          (gfPolyMultiply (newGFPolyFromData [true, false, true, false, false, false, false, true])
            (newGFPolyMonomial 1 2)) g) 2) ∧
      (newGFPolyFromData [true, false, true, false, false, false, false, true]).getLast? =
        (bitsToBytes [true, false, true, false, false, false, false, true]).head? ∧
      res.take ([true, false, true, false, false, false, false, true] : List Bool).length =
        [true, false, true, false, false, false, false, true] ∧
      res.length = ([true, false, true, false, false, false, false, true] : List Bool).length + 8 * 2 :=
  rsEncode_corrected [true, false, true, false, false, false, false, true] 2 (by omega) (by omega)

lemma padChoice_length (i : Nat) : (if i = 0 then padCW0 else padCW1).length = 8 := by
  split <;> rfl

lemma padLoop_length (m : Nat) : ∀ n (d : List Bool) (i : Nat), m - d.length ≤ n →
    d.length % 8 = 0 → d.length ≤ m → m % 8 = 0 → (padLoop m d i).length = m := by
  intro n
  induction n with
  | zero =>
    intro d i h1 h2 h3 h4
    rw [padLoop, dif_neg (by omega)]
    omega
  | succ n ih =>
    intro d i h1 h2 h3 h4
    rw [padLoop]
    by_cases hc : 8 ≤ m - d.length
    · rw [dif_pos hc]
      have hlen : (d ++ (if i = 0 then padCW0 else padCW1)).length = d.length + 8 := by
        rw [List.length_append, padChoice_length]
      apply ih
      · omega
      · omega
      · omega
      · omega
    · rw [dif_neg hc]
      omega

/-- C9: whenever the stream is no longer than `num_data_bits` and
`num_data_bits` is a multiple of 8, `addPadding` extends the stream to
exactly `num_data_bits` bits (zero bits to the next codeword boundary, then
alternating pad codewords), so the final "payload length after padding ≠
num_data_bits" panic branch is unreachable. -/
theorem addPadding_reaches (numDataBits : Nat) (data : List Bool)
    (hle : data.length ≤ numDataBits) (h8 : numDataBits % 8 = 0) :
    ∃ d, addPadding numDataBits data = some d ∧ d.length = numDataBits := by
  unfold addPadding
  by_cases heq : data.length = numDataBits
  · rw [if_pos heq]
    exact ⟨data, rfl, heq⟩
  · rw [if_neg heq]
    have hd1 : (data ++ List.replicate (numBitsToPadToCodeword data.length) false).length
        = data.length + (8 - data.length % 8) % 8 := by
      simp [numBitsToPadToCodeword]
    have hfin : (padLoop numDataBits
        (data ++ List.replicate (numBitsToPadToCodeword data.length) false) 0).length
        = numDataBits := by
      apply padLoop_length numDataBits numDataBits
      · omega
      · omega
      · omega
      · omega
    rw [if_pos hfin]
    exact ⟨_, rfl, hfin⟩

/-- Witness for C9 with `num_data_bits = 16` and a 1-bit stream. -/
theorem addPadding_reaches_witness :
    ∃ d, addPadding 16 [true] = some d ∧ d.length = 16 :=
  addPadding_reaches 16 [true] (by simp) (by omega)

lemma selectMask_aux (p : Nat → Nat) : ∀ j, 1 ≤ j →
    ∃ m, (List.range j).foldl (maskStep p) none = some (m, p m) ∧ m < j ∧
      (∀ k, k < j → p m ≤ p k) ∧ (∀ k, k < m → p m < p k) := by
  intro j hj
  induction j with
  | zero => omega
  | succ n ih =>
    by_cases hn : n = 0
    · subst hn
      refine ⟨0, rfl, by omega, ?_, by omega⟩
      intro k hk
      have : k = 0 := by omega
      subst this
      exact le_rfl
    · obtain ⟨m, hm, hmlt, hmin, hfirst⟩ := ih (by omega)
      rw [List.range_succ, List.foldl_append, hm]
      simp only [List.foldl_cons, List.foldl_nil, maskStep]
      by_cases hc : p n < p m
      · rw [if_pos hc]
        refine ⟨n, rfl, by omega, ?_, ?_⟩
        · intro k hk
          rcases Nat.lt_or_ge k n with h | h
          · exact le_of_lt (lt_of_lt_of_le hc (hmin k h))
          · have : k = n := by omega
            subst this
            exact le_rfl
        · intro k hk
          exact lt_of_lt_of_le hc (hmin k hk)
      · rw [if_neg hc]
        refine ⟨m, rfl, by omega, ?_, hfirst⟩
        intro k hk
        rcases Nat.lt_or_ge k n with h | h
        · exact hmin k h
        · have : k = n := by omega
          subst this
          omega

/-- C5: on a fresh `QRCode` (`q.symbol == nil`), the loop in `encode`
evaluates all eight masks `0..7` and records the mask whose penalty score is
minimal, ties broken by the smallest mask index; the recorded mask index is
always in `0..7`.  The statement quantifies over every penalty function,
covering the actual four-rule score. -/
theorem encode_selects_min_mask (p : Nat → Nat) :
    ∃ m, selectMask p = some (m, p m) ∧ m < 8 ∧
      (∀ k, k < 8 → p m ≤ p k) ∧ (∀ k, k < m → p m < p k) :=
  selectMask_aux p 8 (by omega)

/-- Witness for C5 with the penalty function `k ↦ 20 - 2k` (minimal at
mask 7). -/
theorem encode_selects_min_mask_witness :
    ∃ m, selectMask (fun k => 20 - 2 * k) = some (m, 20 - 2 * m) ∧ m < 8 ∧
      (∀ k, k < 8 → 20 - 2 * m ≤ 20 - 2 * k) ∧ (∀ k, k < m → 20 - 2 * m < 20 - 2 * k) :=
  encode_selects_min_mask (fun k => 20 - 2 * k)

lemma heapRead_append_set {cells : List (List Bool)} {x v : List Bool} {r : Nat}
    (hr : r < cells.length) :
    (BitsetHeap.mk ((cells ++ [x]).set cells.length v)).cells.getD r [] = cells.getD r [] := by
  rw [List.getD_eq_getElem?_getD, List.getD_eq_getElem?_getD]
  rw [List.getElem?_set_ne (by omega)]
  rw [List.getElem?_append_left hr]

/-- C10: `reedsolomon.Encode` never mutates its input: whenever the call
returns, the bitset the `data` argument points to holds exactly the same
bits as before, and the result is a distinct, freshly-allocated bitset (the
EC bytes are appended to a clone). -/
theorem rsEncodeHeap_preserves_input (h : BitsetHeap) (r n : Nat) (h' : BitsetHeap) (res : Nat)
    (hr : r < h.cells.length) (heq : rsEncodeHeap h r n = some (h', res)) :
    heapRead h' r = heapRead h r ∧ res ≠ r := by
  cases hgen : rsGeneratorPoly n with
  | none =>
    rw [rsEncodeHeap, hgen] at heq
    exact Option.noConfusion heq
  | some g =>
    rw [rsEncodeHeap, hgen] at heq
    simp only [heapClone, heapAppendBytes, Option.some.injEq, Prod.mk.injEq] at heq
    obtain ⟨hh, hres⟩ := heq
    constructor
    · rw [← hh]
      show (BitsetHeap.mk _).cells.getD r [] = heapRead h r
      simp only [heapRead] at *
      exact heapRead_append_set hr
    · omega

/-- Witness for C10: a one-byte input bitset at heap slot 0, two EC bytes. -/
theorem rsEncodeHeap_preserves_input_witness :
    ∃ h' res, rsEncodeHeap ⟨[[true, false, false, false, false, false, false, true]]⟩ 0 2
        = some (h', res) ∧
      heapRead h' 0 = heapRead ⟨[[true, false, false, false, false, false, false, true]]⟩ 0 ∧
      res ≠ 0 := by
  refine ⟨_, _, rfl, ?_⟩
  exact rsEncodeHeap_preserves_input ⟨[[true, false, false, false, false, false, false, true]]⟩
    0 2 _ _ (by simp) rfl

lemma find?_range'_eq_some {p : Nat → Bool} : ∀ (cnt lo v : Nat),
    (List.range' lo cnt).find? p = some v →
    p v = true ∧ lo ≤ v ∧ v < lo + cnt ∧ ∀ w, lo ≤ w → w < v → p w = false := by
  intro cnt
  induction cnt with
  | zero =>
    intro lo v h
    simp [List.range'] at h
  | succ n ih =>
    intro lo v h
    rw [List.range'_succ] at h
    cases hp : p lo with
    | true =>
      rw [List.find?_cons_of_pos _ hp] at h
      obtain rfl : lo = v := Option.some.inj h
      exact ⟨hp, le_rfl, by omega, fun w hw1 hw2 => by omega⟩
    | false =>
      rw [List.find?_cons_of_neg _ (by simp [hp])] at h
      obtain ⟨h1, h2, h3, h4⟩ := ih (lo + 1) v h
      refine ⟨h1, by omega, by omega, ?_⟩
      intro w hw1 hw2
      rcases Nat.lt_or_ge w (lo + 1) with hw | hw
      · have : w = lo := by omega
        subst this
        exact hp
      · exact h4 w hw hw2

lemma find?_range'_eq_none {p : Nat → Bool} {cnt lo : Nat}
    (h : (List.range' lo cnt).find? p = none) :
    ∀ w, lo ≤ w → w < lo + cnt → p w = false := by
  intro w h1 h2
  have := List.find?_eq_none.mp h w (List.mem_range'_1.mpr ⟨h1, h2⟩)
  simpa using this

/-- C6: `New` tries the three version bands in order (1–9, 10–26, 27–40),
returning the smallest fitting version of the first band that has one; when
no version in any band fits (in particular for content beyond version 40's
capacity) it returns the content-too-long error rather than succeeding or
panicking.  The statement quantifies over every catalog and every per-band
encoded length, hence covers the actual tables. -/
theorem new_tries_bands_in_order (catalog : Nat → Nat → Option Nat)
    (encLen : Nat → Nat) (level : Nat) :
    ((∀ v, 1 ≤ v → v ≤ 40 → fitsAt catalog encLen level v = false) →
      NewModel catalog encLen level = .error .contentTooLong) ∧
    (∀ v, NewModel catalog encLen level = .ok v →
      1 ≤ v ∧ v ≤ 40 ∧ fitsAt catalog encLen level v = true ∧
      ∀ w, 1 ≤ w → w < v → fitsAt catalog encLen level w = false) := by
  have hfit0 : ∀ w, 1 ≤ w → w ≤ 9 →
      fitsAt catalog encLen level w = versionFits catalog level (encLen 0) w := by
    intro w h1 h2
    simp [fitsAt, bandOf, h2]
  have hfit1 : ∀ w, 10 ≤ w → w ≤ 26 →
      fitsAt catalog encLen level w = versionFits catalog level (encLen 1) w := by
    intro w h1 h2
    simp [fitsAt, bandOf, h2, show ¬ w ≤ 9 by omega]
  have hfit2 : ∀ w, 27 ≤ w →
      fitsAt catalog encLen level w = versionFits catalog level (encLen 2) w := by
    intro w h1
    simp [fitsAt, bandOf, show ¬ w ≤ 9 by omega, show ¬ w ≤ 26 by omega]
  constructor
  · intro hno
    have h0 : chooseQRCodeVersion catalog level 1 9 (encLen 0) = none := by
      cases hc : chooseQRCodeVersion catalog level 1 9 (encLen 0) with
      | none => rfl
      | some v =>
        unfold chooseQRCodeVersion at hc
        obtain ⟨hp, hlo, hhi, -⟩ := find?_range'_eq_some _ _ _ hc
        rw [← hfit0 v hlo (by omega)] at hp
        rw [hno v hlo (by omega)] at hp
        exact Bool.noConfusion hp
    have h1c : chooseQRCodeVersion catalog level 10 26 (encLen 1) = none := by
      cases hc : chooseQRCodeVersion catalog level 10 26 (encLen 1) with
      | none => rfl
      | some v =>
        unfold chooseQRCodeVersion at hc
        obtain ⟨hp, hlo, hhi, -⟩ := find?_range'_eq_some _ _ _ hc
        rw [← hfit1 v hlo (by omega)] at hp
        rw [hno v (by omega) (by omega)] at hp
        exact Bool.noConfusion hp
    have h2c : chooseQRCodeVersion catalog level 27 40 (encLen 2) = none := by
      cases hc : chooseQRCodeVersion catalog level 27 40 (encLen 2) with
      | none => rfl
      | some v =>
        unfold chooseQRCodeVersion at hc
        obtain ⟨hp, hlo, hhi, -⟩ := find?_range'_eq_some _ _ _ hc
        rw [← hfit2 v hlo] at hp
        rw [hno v (by omega) (by omega)] at hp
        exact Bool.noConfusion hp
    unfold NewModel
    rw [h0, h1c, h2c]
  · intro v hok
    unfold NewModel at hok
    cases hc0 : chooseQRCodeVersion catalog level 1 9 (encLen 0) with
    | some v0 =>
      rw [hc0] at hok
      obtain rfl : v0 = v := Except.ok.inj hok
      unfold chooseQRCodeVersion at hc0
      obtain ⟨hp, hlo, hhi, hfirst⟩ := find?_range'_eq_some _ _ _ hc0
      refine ⟨hlo, by omega, ?_, ?_⟩
      · rw [hfit0 _ hlo (by omega)]
        exact hp
      · intro w hw1 hwv
        rw [hfit0 w hw1 (by omega)]
        exact hfirst w hw1 hwv
    | none =>
      rw [hc0] at hok
      unfold chooseQRCodeVersion at hc0
      cases hc1 : chooseQRCodeVersion catalog level 10 26 (encLen 1) with
      | some v1 =>
        rw [hc1] at hok
        obtain rfl : v1 = v := Except.ok.inj hok
        unfold chooseQRCodeVersion at hc1
        obtain ⟨hp, hlo, hhi, hfirst⟩ := find?_range'_eq_some _ _ _ hc1
        refine ⟨by omega, by omega, ?_, ?_⟩
        · rw [hfit1 _ hlo (by omega)]
          exact hp
        · intro w hw1 hwv
          by_cases hw9 : w ≤ 9
          · rw [hfit0 w hw1 hw9]
            exact find?_range'_eq_none hc0 w hw1 (by omega)
          · rw [hfit1 w (by omega) (by omega)]
            exact hfirst w (by omega) hwv
      | none =>
        rw [hc1] at hok
        unfold chooseQRCodeVersion at hc1
        cases hc2 : chooseQRCodeVersion catalog level 27 40 (encLen 2) with
        | some v2 =>
          rw [hc2] at hok
          obtain rfl : v2 = v := Except.ok.inj hok
          unfold chooseQRCodeVersion at hc2
          obtain ⟨hp, hlo, hhi, hfirst⟩ := find?_range'_eq_some _ _ _ hc2
          refine ⟨by omega, by omega, ?_, ?_⟩
          · rw [hfit2 _ hlo]
            exact hp
          · intro w hw1 hwv
            by_cases hw9 : w ≤ 9
            · rw [hfit0 w hw1 hw9]
              exact find?_range'_eq_none hc0 w hw1 (by omega)
            · by_cases hw26 : w ≤ 26
              · rw [hfit1 w (by omega) hw26]
                exact find?_range'_eq_none hc1 w (by omega) (by omega)
              · rw [hfit2 w (by omega)]
                exact hfirst w (by omega) hwv
        | none =>
          rw [hc2] at hok
          exact Except.noConfusion hok

/-- Witness for C6: the no-fit branch at an empty catalog, and the
smallest-version branch at a uniform catalog that fits already at
version 1. -/
theorem new_tries_bands_in_order_witness :
    NewModel (fun _ _ => none) (fun _ => 0) 0 = Except.error QRErr.contentTooLong ∧
    (1 ≤ 1 ∧ 1 ≤ 40 ∧ fitsAt (fun _ _ => some 100) (fun _ => 8) 0 1 = true ∧
      ∀ w, 1 ≤ w → w < 1 → fitsAt (fun _ _ => some 100) (fun _ => 8) 0 w = false) :=
  ⟨(new_tries_bands_in_order (fun _ _ => none) (fun _ => 0) 0).1 (fun _ _ _ => rfl),
   (new_tries_bands_in_order (fun _ _ => some 100) (fun _ => 8) 0).2 1 rfl⟩

/-- C7 (amended): for a recovery level with no catalog entries (in
particular every level outside {L, M, Q, H}), `New` returns the
content-too-long error: it never panics, and it never produces an
invalid-recovery-level error, which does not exist in the code. -/
theorem new_invalid_level (catalog : Nat → Nat → Option Nat) (encLen : Nat → Nat)
    (level : Nat) (hnone : ∀ v, catalog v level = none) :
    NewModel catalog encLen level = .error .contentTooLong ∧
    NewModel catalog encLen level ≠ .error .invalidRecoveryLevel := by
  have hchoose : ∀ lo hi reqLen, chooseQRCodeVersion catalog level lo hi reqLen = none := by
    intro lo hi reqLen
    apply List.find?_eq_none.mpr
    intro x _
    simp [versionFits, hnone x]
  have hmain : NewModel catalog encLen level = .error .contentTooLong := by
    unfold NewModel
    rw [hchoose, hchoose, hchoose]
  refine ⟨hmain, ?_⟩
  rw [hmain]
  intro h
  exact QRErr.noConfusion (Except.error.inj h)

/-- C7 counterexample: a catalog modelled from the spec with entries exactly
for the four levels 0..3 and an invalid level 7: `New` returns the
content-too-long error, not an invalid-recovery-level error. -/
theorem new_invalid_level_counterexample :
    NewModel (fun v l => if 1 ≤ v ∧ v ≤ 40 ∧ l < 4 then some 1000 else none)
      (fun _ => 8) 7 = Except.error QRErr.contentTooLong ∧
    (Except.error QRErr.contentTooLong : Except QRErr Nat) ≠
      Except.error QRErr.invalidRecoveryLevel := by
  constructor
  · rfl
  · intro h
    exact QRErr.noConfusion (Except.error.inj h)

/-- Witness for the amended C7 at the empty catalog and level 7. -/
theorem new_invalid_level_witness :
    NewModel (fun _ _ => none) (fun _ => 8) 7 = Except.error QRErr.contentTooLong ∧
    NewModel (fun _ _ => none) (fun _ => 8) 7 ≠ Except.error QRErr.invalidRecoveryLevel :=
  new_invalid_level _ _ 7 (fun _ => rfl)

lemma catMap_map {α β γ : Type} (f : β → List γ) (g : α → β) (l : List α) :
    catMap f (l.map g) = catMap (fun x => f (g x)) l := by
  induction l with
  | nil => rfl
  | cons x xs ih =>
    show f (g x) ++ catMap f (xs.map g) = f (g x) ++ catMap (fun y => f (g y)) xs
    rw [ih]

lemma catMap_congr {α β : Type} {f g : α → List β} {l : List α}
    (h : ∀ x ∈ l, f x = g x) : catMap f l = catMap g l := by
  induction l with
  | nil => rfl
  | cons x xs ih =>
    show f x ++ catMap f xs = g x ++ catMap g xs
    rw [h x (List.mem_cons_self x xs), ih (fun y hy => h y (List.mem_cons_of_mem x hy))]

lemma catMap_nil_of {α β : Type} {f : α → List β} {l : List α}
    (h : ∀ x ∈ l, f x = []) : catMap f l = [] := by
  induction l with
  | nil => rfl
  | cons x xs ih =>
    show f x ++ catMap f xs = []
    rw [h x (List.mem_cons_self x xs), ih (fun y hy => h y (List.mem_cons_of_mem x hy))]
    rfl

lemma mem_catMap {α β : Type} {f : α → List β} {l : List α} {x : β} :
    x ∈ catMap f l ↔ ∃ a ∈ l, x ∈ f a := by
  induction l with
  | nil => simp [catMap]
  | cons y ys ih =>
    show x ∈ f y ++ catMap f ys ↔ _
    simp [ih]

lemma bsubstr_length (l : List Bool) (s e : Nat) :
    (bsubstr l s e).length = min (e - s) (l.length - s) := by
  simp [bsubstr]

lemma bsubstr_append_left {l m : List Bool} {c : Nat} (h : 8 * c + 8 ≤ l.length) :
    bsubstr (l ++ m) (8 * c) (8 * c + 8) = bsubstr l (8 * c) (8 * c + 8) := by
  unfold bsubstr
  rw [List.drop_append_eq_append_drop]
  rw [show 8 * c - l.length = 0 by omega, List.drop_zero]
  rw [List.take_append_eq_append_take]
  have hlen : (l.drop (8 * c)).length = l.length - 8 * c := by simp
  rw [show (8 * c + 8) - 8 * c = 8 by omega]
  rw [show 8 - (l.drop (8 * c)).length = 0 by omega]
  rw [List.take_zero, List.append_nil]

lemma bsubstr_append_right {l m : List Bool} {s : Nat} (h : l.length ≤ s) :
    bsubstr (l ++ m) s (s + 8) = bsubstr m (s - l.length) (s - l.length + 8) := by
  unfold bsubstr
  rw [List.drop_append_eq_append_drop]
  rw [List.drop_eq_nil_of_le h, List.nil_append]
  rw [show s + 8 - s = 8 by omega, show s - l.length + 8 - (s - l.length) = 8 by omega]

lemma rsEncode_eq (seg : List Bool) (ec : Nat) (h2 : 2 ≤ ec) (h256 : ec ≤ 256) :
    rsEncode seg ec = some (seg ++ bytesToBits (polyData (gfPolyRemainder
      (gfPolyMultiply (newGFPolyFromData seg) (newGFPolyMonomial 1 ec))
      (rsGenProduct ec)) ec)) := by
  simp [rsEncode, rsGeneratorPoly_ok h2 h256]

lemma makeBlocks_eq_spec (payload : List Bool) : ∀ (plan : List (Nat × Nat)) (e : Nat),
    (∀ p ∈ plan, 2 ≤ p.2 ∧ p.2 ≤ 256) →
    makeBlocks payload e plan = some ((specBlockList payload e plan).map toBlock) := by
  intro plan
  induction plan with
  | nil => intro e _; rfl
  | cons p rest ih =>
    intro e h
    obtain ⟨k, ec⟩ := p
    have hp := h (k, ec) (List.mem_cons_self _ _)
    have hrest := ih (e + k * 8) (fun q hq => h q (List.mem_cons_of_mem _ hq))
    simp only [makeBlocks]
    rw [rsEncode_eq _ ec hp.1 hp.2, hrest]
    simp only [specBlockList, List.map, toBlock, Nat.add_sub_cancel_left]

lemma specBlockList_facts (payload : List Bool) : ∀ (plan : List (Nat × Nat)) (e : Nat),
    e + sumKBits plan ≤ payload.length →
    ∀ t ∈ specBlockList payload e plan,
      t.seg.length = t.k * 8 ∧ t.ecBits.length = 8 * t.ec := by
  intro plan
  induction plan with
  | nil =>
    intro e _ t ht
    cases ht
  | cons p rest ih =>
    intro e hlen t ht
    obtain ⟨k, ec⟩ := p
    have hsum : sumKBits ((k, ec) :: rest) = k * 8 + sumKBits rest := rfl
    rcases List.mem_cons.mp ht with h1 | h1
    · subst h1
      constructor
      · show (bsubstr payload e (e + k * 8)).length = k * 8
        rw [bsubstr_length]
        omega
      · show (bytesToBits (polyData (gfPolyRemainder
          (gfPolyMultiply (newGFPolyFromData (bsubstr payload e (e + k * 8)))
            (newGFPolyMonomial 1 ec)) (rsGenProduct ec)) ec)).length = 8 * ec
        rw [bytesToBits_length, polyData_length]
    · exact ih (e + k * 8) (by omega) t h1

lemma mem_le_maxK {ts : List specBlock} {t : specBlock} (h : t ∈ ts) : t.k ≤ maxK ts := by
  induction ts with
  | nil => cases h
  | cons x xs ih =>
    rcases List.mem_cons.mp h with h1 | h1
    · subst h1
      simp only [maxK, List.foldr_cons]
      omega
    · have := ih h1
      simp only [maxK, List.foldr_cons] at this ⊢
      omega

lemma mem_le_maxE {ts : List specBlock} {t : specBlock} (h : t ∈ ts) : t.ec ≤ maxE ts := by
  induction ts with
  | nil => cases h
  | cons x xs ih =>
    rcases List.mem_cons.mp h with h1 | h1
    · subst h1
      simp only [maxE, List.foldr_cons]
      omega
    · have := ih h1
      simp only [maxE, List.foldr_cons] at this ⊢
      omega

lemma dataLoopAux_cols (blocks : List dataBlock) (C : Nat)
    (hC : ∀ b ∈ blocks, b.ecStartOffset ≤ 8 * C) :
    ∀ n j, C - j ≤ n →
      dataLoopAux blocks (8 * j) =
        catMap (fun c => catMap (fun b => if 8 * c < b.ecStartOffset then
          bsubstr b.data (8 * c) (8 * c + 8) else []) blocks) (List.range' j (C - j)) := by
  intro n
  induction n with
  | zero =>
    intro j hj
    rw [show C - j = 0 by omega]
    rw [dataLoopAux, dif_neg]
    · rfl
    · simp only [List.any_eq_true, decide_eq_true_eq, not_exists]
      intro b hb
      have h1 := hC b hb.1
      have h2 := hb.2
      omega
  | succ n ih =>
    intro j hj
    by_cases hA : blocks.any (fun b => decide (8 * j < b.ecStartOffset)) = true
    · have hjC : j < C := by
        simp only [List.any_eq_true, decide_eq_true_eq] at hA
        obtain ⟨b, hb, hlt⟩ := hA
        have := hC b hb
        omega
      rw [dataLoopAux, dif_pos hA]
      rw [show 8 * j + 8 = 8 * (j + 1) by ring]
      rw [ih (j + 1) (by omega)]
      rw [show C - j = (C - (j + 1)) + 1 by omega, List.range'_succ]
      rfl
    · rw [dataLoopAux, dif_neg hA]
      symm
      apply catMap_nil_of
      intro c hc
      apply catMap_nil_of
      intro b hb
      simp only [List.any_eq_true, decide_eq_true_eq, not_exists] at hA
      push_neg at hA
      have h1 := hA b hb
      have h2 : j ≤ c := (List.mem_range'_1.mp hc).1
      rw [if_neg (by omega)]

lemma ecLoopAux_cols (blocks : List dataBlock) (E : Nat)
    (hE : ∀ b ∈ blocks, b.data.length ≤ b.ecStartOffset + 8 * E) :
    ∀ n j, E - j ≤ n →
      ecLoopAux blocks (8 * j) =
        catMap (fun c => catMap (fun b => if 8 * c + b.ecStartOffset < b.data.length then
          bsubstr b.data (8 * c + b.ecStartOffset) (8 * c + b.ecStartOffset + 8) else []) blocks)
          (List.range' j (E - j)) := by
  intro n
  induction n with
  | zero =>
    intro j hj
    rw [show E - j = 0 by omega]
    rw [ecLoopAux, dif_neg]
    · rfl
    · simp only [List.any_eq_true, decide_eq_true_eq, not_exists]
      intro b hb
      have h1 := hE b hb.1
      have h2 := hb.2
      omega
  | succ n ih =>
    intro j hj
    by_cases hA : blocks.any (fun b => decide (8 * j + b.ecStartOffset < b.data.length)) = true
    · have hjE : j < E := by
        simp only [List.any_eq_true, decide_eq_true_eq] at hA
        obtain ⟨b, hb, hlt⟩ := hA
        have := hE b hb
        omega
      rw [ecLoopAux, dif_pos hA]
      rw [show 8 * j + 8 = 8 * (j + 1) by ring]
      rw [ih (j + 1) (by omega)]
      rw [show E - j = (E - (j + 1)) + 1 by omega, List.range'_succ]
      rfl
    · rw [ecLoopAux, dif_neg hA]
      symm
      apply catMap_nil_of
      intro c hc
      apply catMap_nil_of
      intro b hb
      simp only [List.any_eq_true, decide_eq_true_eq, not_exists] at hA
      push_neg at hA
      have h1 := hA b hb
      have h2 : j ≤ c := (List.mem_range'_1.mp hc).1
      rw [if_neg (by omega)]

/-- C2: `encodeBlocks` splits the padded payload into blocks per the
version's block layout (walking block groups in order, `k_i` data codewords
each), appends `n_i - k_i` Reed–Solomon EC bytes to each block, then emits,
for each byte column `c = 0, 1, …` and each block in block-index order, that
block's `c`-th data byte when `c < k_i`; then all blocks' EC bytes
interleaved the same column-major way; then exactly `numRemainderBits` zero
bits.  Hypotheses: the layout's EC counts are in `2..256` (so the RS
encoder does not panic) and the payload length matches the layout. -/
theorem encodeBlocks_interleaves (payload : List Bool) (groups : List blockGroup) (r : Nat)
    (hec : ∀ g ∈ groups, 2 ≤ g.numCodewords - g.numDataCodewords ∧
      g.numCodewords - g.numDataCodewords ≤ 256)
    (hlen : payload.length = sumKBits (groupPlan groups)) :
    encodeBlocks payload groups r = some (specEncodeBlocks payload groups r) := by
  have hplan : ∀ p ∈ groupPlan groups, 2 ≤ p.2 ∧ p.2 ≤ 256 := by
    intro p hp
    obtain ⟨g, hg, hrep⟩ := mem_catMap.mp hp
    have := List.eq_of_mem_replicate hrep
    subst this
    exact hec g hg
  have hmb := makeBlocks_eq_spec payload (groupPlan groups) 0 hplan
  have hfacts := specBlockList_facts payload (groupPlan groups) 0 (by omega)
  set ts := specBlockList payload 0 (groupPlan groups) with hts
  have hdata : dataLoopAux (ts.map toBlock) 0 =
      catMap (fun c => catMap (fun t =>
        if c < t.k then bsubstr t.seg (8 * c) (8 * c + 8) else []) ts)
        (List.range (maxK ts)) := by
    have hC : ∀ b ∈ ts.map toBlock, b.ecStartOffset ≤ 8 * maxK ts := by
      intro b hb
      obtain ⟨t, ht, rfl⟩ := List.mem_map.mp hb
      have := mem_le_maxK ht
      show t.k * 8 ≤ 8 * maxK ts
      omega
    have h1 := dataLoopAux_cols (ts.map toBlock) (maxK ts) hC (maxK ts) 0 (by omega)
    rw [Nat.mul_zero, Nat.sub_zero, ← List.range_eq_range'] at h1
    rw [h1]
    apply catMap_congr
    intro c _
    rw [catMap_map]
    apply catMap_congr
    intro t ht
    obtain ⟨hseg, _⟩ := hfacts t ht
    show (if 8 * c < (toBlock t).ecStartOffset then
        bsubstr (toBlock t).data (8 * c) (8 * c + 8) else [])
      = (if c < t.k then bsubstr t.seg (8 * c) (8 * c + 8) else [])
    simp only [toBlock]
    by_cases hck : c < t.k
    · rw [if_pos (by omega), if_pos hck]
      exact bsubstr_append_left (by omega)
    · rw [if_neg (by omega), if_neg hck]
  have hecl : ecLoopAux (ts.map toBlock) 0 =
      catMap (fun c => catMap (fun t =>
        if c < t.ec then bsubstr t.ecBits (8 * c) (8 * c + 8) else []) ts)
        (List.range (maxE ts)) := by
    have hE : ∀ b ∈ ts.map toBlock, b.data.length ≤ b.ecStartOffset + 8 * maxE ts := by
      intro b hb
      obtain ⟨t, ht, rfl⟩ := List.mem_map.mp hb
      obtain ⟨hseg, hecb⟩ := hfacts t ht
      have := mem_le_maxE ht
      show (t.seg ++ t.ecBits).length ≤ t.k * 8 + 8 * maxE ts
      rw [List.length_append]
      omega
    have h1 := ecLoopAux_cols (ts.map toBlock) (maxE ts) hE (maxE ts) 0 (by omega)
    rw [Nat.mul_zero, Nat.sub_zero, ← List.range_eq_range'] at h1
    rw [h1]
    apply catMap_congr
    intro c _
    rw [catMap_map]
    apply catMap_congr
    intro t ht
    obtain ⟨hseg, hecb⟩ := hfacts t ht
    show (if 8 * c + (toBlock t).ecStartOffset < (toBlock t).data.length then
        bsubstr (toBlock t).data (8 * c + (toBlock t).ecStartOffset)
          (8 * c + (toBlock t).ecStartOffset + 8) else [])
      = (if c < t.ec then bsubstr t.ecBits (8 * c) (8 * c + 8) else [])
    simp only [toBlock]
    rw [List.length_append]
    by_cases hce : c < t.ec
    · rw [if_pos (by omega), if_pos hce]
      have hb := @bsubstr_append_right t.seg t.ecBits (8 * c + t.k * 8) (by omega)
      rw [hb, hseg, show 8 * c + t.k * 8 - t.k * 8 = 8 * c by omega]
    · rw [if_neg (by omega), if_neg hce]
  simp only [encodeBlocks]
  rw [hmb]
  show some (dataLoopAux (ts.map toBlock) 0 ++ ecLoopAux (ts.map toBlock) 0
      ++ List.replicate r false) = some (specEncodeBlocks payload groups r)
  rw [hdata, hecl]
  rfl

/-- Witness for C2: one group of two blocks with 3 data and 2 EC codewords
each, a 48-bit payload and 3 remainder bits. -/
theorem encodeBlocks_interleaves_witness :
    encodeBlocks (List.replicate 48 true) [⟨2, 5, 3⟩] 3
      = some (specEncodeBlocks (List.replicate 48 true) [⟨2, 5, 3⟩] 3) :=
  encodeBlocks_interleaves (List.replicate 48 true) [⟨2, 5, 3⟩] 3
    (by decide) (by decide)

end QR
